import Mathlib

/-!
Verification of the cutAI client-side workflow core: the timeline drag
mathematics (`EnhancementTimeline.tsx`), the caption point lookup
(`CaptionOverlay`), the animation and enhancement workflow state machines
(`useAnimationWorkflow.ts`, `useEnhancementWorkflow`), and the SSE stream
reconciler with fenced-JSON edit-action extraction (`useVideoChat`).
Times and progress values are modelled as rationals; remote calls and the
platform JSON parser are modelled as explicit function parameters.
-/

set_option autoImplicit false

namespace CutAI

/-! ## Timeline drag mathematics (EnhancementTimeline.tsx, handleMouseMove) -/

/-- The three drag zones of a clip on the enhancement timeline. -/
inductive DragMode
  | move
  | resizeStart
  | resizeEnd
deriving DecidableEq, Repr

/-- The pair `(newStart, newEnd)` that `handleMouseMove` passes to
`onUpdateTiming`, as computed from the drag state `(originalStart,
originalEnd)`, the pointer delta converted to seconds (`deltaTime`) and the
drag mode.  Mirrors `EnhancementTimeline.tsx` lines 152-181, including the
span-compensation assignments guarded by `newStart === 0` and
`newEnd === duration` in the `move` branch. -/
def handleMouseMove (duration originalStart originalEnd deltaTime : ℚ) :
    DragMode → ℚ × ℚ
  | .move =>
    let shift := deltaTime
    let newStart := max 0 (originalStart + shift)
    let newEnd := min duration (originalEnd + shift)
    let originalDuration := originalEnd - originalStart
    let newEnd2 := if newStart = 0 then originalDuration else newEnd
    let newStart2 := if newEnd2 = duration then duration - originalDuration else newStart
    (newStart2, newEnd2)
  | .resizeStart =>
    (max 0 (min (originalEnd - 0.1) (originalStart + deltaTime)), originalEnd)
  | .resizeEnd =>
    (originalStart, min duration (max (originalStart + 0.1) (originalEnd + deltaTime)))

/-- C2: for every enhancement whose pre-drag bounds satisfy
`0 ≤ startTime < endTime ≤ duration` with `duration > 0`, and every pointer
delta and drag mode, the pair passed to `onUpdateTiming` satisfies
`0 ≤ newStart < newEnd ≤ duration`. -/
theorem drag_bounds_invariant (duration originalStart originalEnd deltaTime : ℚ)
    (mode : DragMode)
    (h0 : 0 ≤ originalStart) (h1 : originalStart < originalEnd)
    (h2 : originalEnd ≤ duration) (h3 : 0 < duration) :
    0 ≤ (handleMouseMove duration originalStart originalEnd deltaTime mode).1 ∧
    (handleMouseMove duration originalStart originalEnd deltaTime mode).1 <
      (handleMouseMove duration originalStart originalEnd deltaTime mode).2 ∧
    (handleMouseMove duration originalStart originalEnd deltaTime mode).2 ≤ duration := by
  cases mode with
  | move =>
    simp only [handleMouseMove]
    rcases le_or_lt (originalStart + deltaTime) 0 with hs | hs
    · rw [max_eq_left hs, if_pos rfl]
      rcases eq_or_ne (originalEnd - originalStart) duration with hd | hd
      · rw [if_pos hd]
        exact ⟨by linarith, by linarith, by linarith⟩
      · rw [if_neg hd]
        exact ⟨le_refl 0, by linarith, by linarith⟩
    · rw [max_eq_right hs.le, if_neg (ne_of_gt hs)]
      rcases le_or_lt duration (originalEnd + deltaTime) with he | he
      · rw [min_eq_left he, if_pos rfl]
        exact ⟨by linarith, by linarith, le_refl _⟩
      · rw [min_eq_right he.le, if_neg (ne_of_lt he)]
        exact ⟨by linarith, by linarith, by linarith⟩
  | resizeStart =>
    simp only [handleMouseMove]
    refine ⟨le_max_left _ _, ?_, h2⟩
    exact max_lt (by linarith) (lt_of_le_of_lt (min_le_left _ _) (by linarith))
  | resizeEnd =>
    simp only [handleMouseMove]
    refine ⟨h0, ?_, min_le_left _ _⟩
    exact lt_min (by linarith) (lt_of_lt_of_le (by linarith) (le_max_left _ _))

/-- Witness for `drag_bounds_invariant` at the spec's example: a 90-second
timeline, the pause `[80, 82]` moved by `+15` seconds. -/
theorem drag_bounds_invariant_witness :
    0 ≤ (handleMouseMove 90 80 82 15 .move).1 ∧
    (handleMouseMove 90 80 82 15 .move).1 < (handleMouseMove 90 80 82 15 .move).2 ∧
    (handleMouseMove 90 80 82 15 .move).2 ≤ 90 :=
  drag_bounds_invariant 90 80 82 15 .move (by norm_num) (by norm_num) (by norm_num)
    (by norm_num)

/-- C3: a `move` drag preserves the span exactly for every delta, including
deltas that clamp against `0` or against `duration`. -/
theorem move_preserves_span (duration originalStart originalEnd deltaTime : ℚ)
    (hspan : originalEnd - originalStart ≤ duration) :
    (handleMouseMove duration originalStart originalEnd deltaTime .move).2 -
      (handleMouseMove duration originalStart originalEnd deltaTime .move).1 =
      originalEnd - originalStart := by
  simp only [handleMouseMove]
  rcases le_or_lt (originalStart + deltaTime) 0 with hs | hs
  · rw [max_eq_left hs, if_pos rfl]
    rcases eq_or_ne (originalEnd - originalStart) duration with hd | hd
    · rw [if_pos hd]; linarith
    · rw [if_neg hd]; ring
  · rw [max_eq_right hs.le, if_neg (ne_of_gt hs)]
    rcases le_or_lt duration (originalEnd + deltaTime) with he | he
    · rw [min_eq_left he, if_pos rfl]; ring
    · rw [min_eq_right he.le, if_neg (ne_of_lt he)]; ring

/-- Witness for `move_preserves_span`: attempting `[95, 97]` on a 90-second
timeline clamps to `[88, 90]`, preserving the 2-second span. -/
theorem move_preserves_span_witness :
    (handleMouseMove 90 80 82 15 .move).2 - (handleMouseMove 90 80 82 15 .move).1 = 82 - 80 ∧
    handleMouseMove 90 80 82 15 .move = (88, 90) :=
  ⟨move_preserves_span 90 80 82 15 (by norm_num), by norm_num [handleMouseMove]⟩

/-! ## Animation workflow state machine (useAnimationWorkflow.ts)

The `VideoContext` and `Storyboard` payloads are opaque remote-produced data;
the workflow record is parameterised over their types.  The remote call of
`generateStoryboard` is modelled as an explicit `Except`-valued argument. -/

/-- The six steps of the animation workflow, in `stepOrder` order. -/
inductive WorkflowStep
  | contextAnalysis
  | styleSelection
  | storyboardGeneration
  | elementReview
  | animationPreview
  | finalIntegration
deriving DecidableEq, Repr

/-- The `status` tag of `AnimationWorkflow`. -/
inductive WorkflowStatus
  | idle
  | analyzing
  | generating
  | reviewing
  | applying
  | complete
  | error
deriving DecidableEq, Repr

/-- The `AnimationWorkflow` state record of `useAnimationWorkflow.ts`. -/
structure AnimationWorkflow (VC SB : Type) where
  status : WorkflowStatus
  currentStep : WorkflowStep
  progress : ℚ
  videoContext : Option VC
  storyboard : Option SB
  approvedElements : List String
  errorMessage : Option String
deriving DecidableEq, Repr

/-- The initial `useState` value of the animation workflow. -/
def initialWorkflow {VC SB : Type} : AnimationWorkflow VC SB :=
  { status := .idle
    currentStep := .contextAnalysis
    progress := 0
    videoContext := none
    storyboard := none
    approvedElements := []
    errorMessage := none }

/-- `generateStoryboard` (useAnimationWorkflow.ts lines 95-142): the
precondition throw, the optimistic `generating` update, and the success and
failure transitions.  `remote` is the result of the `generate-storyboard`
remote call; the returned `Except` reports what the async function
returns or throws. -/
def generateStoryboard {VC SB : Type} (w : AnimationWorkflow VC SB)
    (remote : Except String SB) : AnimationWorkflow VC SB × Except String SB :=
  match w.videoContext with
  | none => (w, .error "Video context required before generating storyboard")
  | some _ =>
    let w1 := { w with status := .generating, currentStep := .storyboardGeneration,
                       progress := 60 }
    match remote with
    | .ok sb =>
      ({ w1 with storyboard := some sb, currentStep := .elementReview,
                 progress := 80, status := .reviewing }, .ok sb)
    | .error e =>
      ({ w1 with status := .error, errorMessage := some e }, .error e)

/-- `approveElement`: appends the id to `approvedElements`. -/
def approveElement {VC SB : Type} (w : AnimationWorkflow VC SB)
    (elementId : String) : AnimationWorkflow VC SB :=
  { w with approvedElements := w.approvedElements ++ [elementId] }

/-- `unapproveElement`: filters the id out of `approvedElements`. -/
def unapproveElement {VC SB : Type} (w : AnimationWorkflow VC SB)
    (elementId : String) : AnimationWorkflow VC SB :=
  { w with approvedElements := w.approvedElements.filter (fun id => id ≠ elementId) }

/-- The `stepOrder` array of `goToStep`. -/
def stepOrder : List WorkflowStep :=
  [.contextAnalysis, .styleSelection, .storyboardGeneration, .elementReview,
   .animationPreview, .finalIntegration]

/-- `goToStep` (useAnimationWorkflow.ts lines 205-223): recomputes
`progress` from the index of the requested step and updates `currentStep`
and `status` unconditionally. -/
def goToStep {VC SB : Type} (w : AnimationWorkflow VC SB)
    (step : WorkflowStep) : AnimationWorkflow VC SB :=
  let stepIndex := stepOrder.indexOf step
  let progress := (stepIndex : ℚ) / ((stepOrder.length : ℚ) - 1) * 100
  { w with currentStep := step, progress := progress,
           status := if step = .contextAnalysis then .idle else .reviewing }

/-- C4: calling `generateStoryboard` while `videoContext` is `null` fails
with the precondition error before any remote call, and every field of the
workflow state is left unchanged. -/
theorem generateStoryboard_precondition {VC SB : Type}
    (w : AnimationWorkflow VC SB) (remote : Except String SB)
    (h : w.videoContext = none) :
    generateStoryboard w remote =
      (w, .error "Video context required before generating storyboard") := by
  unfold generateStoryboard
  rw [h]

/-- Witness for `generateStoryboard_precondition` at the initial workflow
state. -/
theorem generateStoryboard_precondition_witness :
    (initialWorkflow : AnimationWorkflow Unit Unit).videoContext = none ∧
    generateStoryboard (initialWorkflow : AnimationWorkflow Unit Unit)
        (.error "remote failure") =
      (initialWorkflow, .error "Video context required before generating storyboard") :=
  ⟨rfl, generateStoryboard_precondition initialWorkflow (.error "remote failure") rfl⟩

/-- C5 counterexample: from the initial workflow state (nothing completed
yet), `goToStep` to the last step is not rejected: it changes the workflow,
setting `currentStep` to the requested forward step and `progress` to 100. -/
theorem goToStep_no_gating_counterexample :
    goToStep (initialWorkflow : AnimationWorkflow Unit Unit) .finalIntegration ≠
        initialWorkflow ∧
    (goToStep (initialWorkflow : AnimationWorkflow Unit Unit)
        .finalIntegration).currentStep = .finalIntegration ∧
    (goToStep (initialWorkflow : AnimationWorkflow Unit Unit)
        .finalIntegration).progress = 100 := by
  refine ⟨?_, rfl, ?_⟩
  · intro h
    exact absurd (congrArg AnimationWorkflow.currentStep h) (by decide)
  · have h5 : stepOrder.indexOf WorkflowStep.finalIntegration = 5 := by rfl
    show (stepOrder.indexOf WorkflowStep.finalIntegration : ℚ) /
        ((stepOrder.length : ℚ) - 1) * 100 = 100
    rw [h5]
    norm_num [stepOrder]

/-- C5 amended: `goToStep` performs no gating at all — for every workflow
state and every requested step (forward steps included) it sets
`currentStep` to the requested step, recomputes `progress` as
`stepIndex / (totalSteps - 1) × 100` over the six-step order, sets `status`
to `idle` for context-analysis and `reviewing` otherwise, and leaves the
payload fields untouched. -/
theorem goToStep_behavior {VC SB : Type} (w : AnimationWorkflow VC SB)
    (step : WorkflowStep) :
    (goToStep w step).currentStep = step ∧
    (goToStep w step).progress = (stepOrder.indexOf step : ℚ) / 5 * 100 ∧
    (goToStep w step).status =
      (if step = .contextAnalysis then .idle else .reviewing) ∧
    (goToStep w step).videoContext = w.videoContext ∧
    (goToStep w step).storyboard = w.storyboard ∧
    (goToStep w step).approvedElements = w.approvedElements := by
  refine ⟨rfl, ?_, rfl, rfl, rfl, rfl⟩
  show (stepOrder.indexOf step : ℚ) / ((stepOrder.length : ℚ) - 1) * 100 = _
  norm_num [stepOrder]

/-- C9: `approveElement` and `unapproveElement` are pure membership toggles
on the `approvedElements` id set and are idempotent as set operations:
approving twice yields the same id set as approving once, unapproving is
idempotent on the nose, and neither call touches any other workflow
field. -/
theorem approve_unapprove_idempotent {VC SB : Type}
    (w : AnimationWorkflow VC SB) (elementId x : String) :
    (x ∈ (approveElement (approveElement w elementId) elementId).approvedElements ↔
      x ∈ (approveElement w elementId).approvedElements) ∧
    unapproveElement (unapproveElement w elementId) elementId =
      unapproveElement w elementId ∧
    (x ∈ (approveElement w elementId).approvedElements ↔
      x ∈ w.approvedElements ∨ x = elementId) ∧
    (x ∈ (unapproveElement w elementId).approvedElements ↔
      x ∈ w.approvedElements ∧ x ≠ elementId) ∧
    (approveElement w elementId).status = w.status ∧
    (approveElement w elementId).videoContext = w.videoContext ∧
    (approveElement w elementId).storyboard = w.storyboard ∧
    (approveElement w elementId).progress = w.progress ∧
    (unapproveElement w elementId).status = w.status ∧
    (unapproveElement w elementId).videoContext = w.videoContext ∧
    (unapproveElement w elementId).storyboard = w.storyboard ∧
    (unapproveElement w elementId).progress = w.progress := by
  refine ⟨?_, ?_, ?_, ?_, rfl, rfl, rfl, rfl, rfl, rfl, rfl, rfl⟩
  · simp [approveElement, List.mem_append]
  · simp only [unapproveElement]
    congr 1
    simp [List.filter_filter]
  · simp [approveElement, List.mem_append]
  · simp [unapproveElement, List.mem_filter]

/-! ## Enhancement workflow (useEnhancementWorkflow) -/

/-- Enhancement kinds. -/
inductive EnhancementType
  | visual
  | sfx
  | graphic
  | animation
deriving DecidableEq, Repr

/-- Per-item lifecycle status of an enhancement. -/
inductive EnhancementStatus
  | suggested
  | approved
  | rejected
  | generating
  | ready
  | error
deriving DecidableEq, Repr

/-- The `content` payload of a generated enhancement. -/
structure GeneratedContent where
  contentType : String
  url : Option String
  prompt : Option String
deriving DecidableEq, Repr

/-- Overlay position of an enhancement. -/
structure EnhancementPosition where
  x : ℚ
  y : ℚ
  scale : ℚ
deriving DecidableEq, Repr

/-- A single enhancement entity (types/enhancement.ts). -/
structure Enhancement where
  id : String
  etype : EnhancementType
  status : EnhancementStatus
  startTime : ℚ
  endTime : ℚ
  duration : ℚ
  description : String
  triggerText : String
  reason : String
  confidence : ℚ
  category : String
  tags : List String
  position : Option EnhancementPosition
  content : Option GeneratedContent
deriving DecidableEq, Repr

/-- The `status` tag of `EnhancementWorkflow`. -/
inductive EWStatus
  | idle
  | analyzing
  | reviewing
  | generating
  | complete
  | error
deriving DecidableEq, Repr

/-- The `EnhancementWorkflow` state record; the analysis payload is opaque
and the record is parameterised over its type. -/
structure EnhancementWorkflow (A : Type) where
  status : EWStatus
  progress : ℚ
  enhancements : List Enhancement
  analysis : Option A
  errorMessage : Option String
deriving DecidableEq, Repr

/-- The two remote generation endpoints used by
`generateEnhancementContent`, as result oracles: `generateEnhancementImage`
maps a prompt to `(imageUrl, prompt)` or a failure, and
`generateEnhancementSfx` maps a prompt and a duration to
`(audioUrl, prompt)` or a failure. -/
structure Gateway where
  generateEnhancementImage : String → Except String (String × String)
  generateEnhancementSfx : String → ℚ → Except String (String × String)

/-- JavaScript `a || b` on an optional string (empty string is falsy). -/
def jsOrString (a : Option String) (b : String) : String :=
  match a with
  | some s => if s = "" then b else s
  | none => b

/-- `generateEnhancementContent` (useEnhancementWorkflow lines 275-341):
looks up the enhancement, marks it `generating`, performs the
type-dependent remote call, and records `ready` with content or `error`.
The surrounding `try`/`catch` swallows every failure, so the function
always returns normally; this is reflected by the total return type. -/
def generateEnhancementContent (gw : Gateway) (es : List Enhancement)
    (enhancementId : String) : List Enhancement :=
  match es.find? (fun e => e.id = enhancementId) with
  | none => es
  | some enhancement =>
    let es1 := es.map fun e =>
      if e.id = enhancementId then { e with status := .generating } else e
    match enhancement.etype with
    | .visual =>
      match gw.generateEnhancementImage
          (jsOrString (enhancement.content.bind (fun c => c.prompt))
            enhancement.description) with
      | .ok r => es1.map fun e =>
          if e.id = enhancementId then
            { e with status := .ready,
                     content := some ⟨"image", some r.1, some r.2⟩ }
          else e
      | .error _ => es1.map fun e =>
          if e.id = enhancementId then { e with status := .error } else e
    | .sfx =>
      match gw.generateEnhancementSfx
          (jsOrString (enhancement.content.bind (fun c => c.prompt))
            enhancement.description)
          (min enhancement.duration 5) with
      | .ok r => es1.map fun e =>
          if e.id = enhancementId then
            { e with status := .ready,
                     content := some ⟨"audio", some r.1, some r.2⟩ }
          else e
      | .error _ => es1.map fun e =>
          if e.id = enhancementId then { e with status := .error } else e
    | _ => es1.map fun e =>
        if e.id = enhancementId then { e with status := .ready } else e

/-- `generateApproved` (useEnhancementWorkflow lines 344-369): iterates the
approved snapshot, invoking `generateEnhancementContent` per item, and
increments `completed` after each call returns (the callee never throws, so
the `catch` in the loop is unreachable).  Returns the final workflow, the
`completed` counter reported by the toast, and the attempted count
(`approved.length`). -/
def generateApproved {A : Type} (gw : Gateway) (w : EnhancementWorkflow A) :
    EnhancementWorkflow A × ℕ × ℕ :=
  let approved := w.enhancements.filter (fun e => e.status = .approved)
  if approved.length = 0 then (w, 0, 0)
  else
    let w1 := { w with status := EWStatus.generating, progress := (50 : ℚ) }
    let result := approved.foldl
      (fun (p : List Enhancement × ℕ) e =>
        (generateEnhancementContent gw p.1 e.id, p.2 + 1))
      (w1.enhancements, 0)
    ({ w1 with enhancements := result.1, status := .complete, progress := 100 },
      result.2, approved.length)

/-- A gateway on which every generation call fails. -/
def failingGateway : Gateway :=
  ⟨fun _ => .error "Generation failed", fun _ _ => .error "Generation failed"⟩

/-- One approved visual enhancement. -/
def demoEnhancement : Enhancement :=
  { id := "enhancement_1"
    etype := .visual
    status := .approved
    startTime := 1
    endTime := 3
    duration := 2
    description := "explosion overlay"
    triggerText := "boom"
    reason := "emphasis"
    confidence := 1
    category := "emphasis"
    tags := []
    position := none
    content := none }

/-- A reviewing-stage workflow holding the single approved enhancement. -/
def demoEnhancementWorkflow : EnhancementWorkflow Unit :=
  { status := .reviewing
    progress := 50
    enhancements := [demoEnhancement]
    analysis := some ()
    errorMessage := none }

/-- C1 (failing input): with one approved visual enhancement whose image
generation fails, `generateApproved` completes, the item's status becomes
`error`, zero items succeed — yet the reported completed count is 1, equal
to the attempted count, because `generateEnhancementContent` swallows the
failure and the loop increments `completed` unconditionally.  The spec's
claim that the completed count equals the succeeded count is violated. -/
theorem generateApproved_reports_attempted_count :
    (generateApproved failingGateway demoEnhancementWorkflow).2.1 = 1 ∧
    (generateApproved failingGateway demoEnhancementWorkflow).2.2 = 1 ∧
    ((generateApproved failingGateway demoEnhancementWorkflow).1.enhancements.filter
      (fun e => e.status = .ready)).length = 0 ∧
    ((generateApproved failingGateway demoEnhancementWorkflow).1.enhancements.map
      (fun e => e.status)) = [.error] ∧
    (generateApproved failingGateway demoEnhancementWorkflow).1.status = .complete := by
  decide

/-! ## Caption point lookup (CaptionOverlay) -/

/-- A transcript segment as used by the caption overlay. -/
structure TranscriptSegment where
  startTime : ℚ
  endTime : ℚ
  text : String
  speaker : Option String
deriving DecidableEq, Repr

/-- The caption lookup of `CaptionOverlay`: `segments.findIndex(seg =>
currentTime >= seg.startTime && currentTime <= seg.endTime)`, returning the
matched segment, or nothing when no segment contains the query time. -/
def findActiveSegment (currentTime : ℚ) : List TranscriptSegment → Option TranscriptSegment
  | [] => none
  | seg :: rest =>
    if seg.startTime ≤ currentTime ∧ currentTime ≤ seg.endTime then some seg
    else findActiveSegment currentTime rest

/-- C8: the caption point lookup returns the first segment in array order
whose inclusive `[startTime, endTime]` range contains the query time, and
returns no active caption (rather than an error) exactly when no segment
contains it — including query times outside the media range. -/
theorem caption_lookup_spec (segs : List TranscriptSegment) (t : ℚ) :
    (∀ seg, findActiveSegment t segs = some seg →
      ∃ i seg', segs.get? i = some seg' ∧ seg' = seg ∧
        (seg.startTime ≤ t ∧ t ≤ seg.endTime) ∧
        ∀ j s', j < i → segs.get? j = some s' →
          ¬ (s'.startTime ≤ t ∧ t ≤ s'.endTime)) ∧
    (findActiveSegment t segs = none ↔
      ∀ s ∈ segs, ¬ (s.startTime ≤ t ∧ t ≤ s.endTime)) := by
  induction segs with
  | nil =>
    refine ⟨fun seg h => by simp [findActiveSegment] at h, ?_⟩
    simp [findActiveSegment]
  | cons a rest ih =>
    by_cases h : a.startTime ≤ t ∧ t ≤ a.endTime
    · refine ⟨?_, ?_⟩
      · intro seg hs
        rw [findActiveSegment, if_pos h] at hs
        refine ⟨0, a, rfl, by injection hs, by injection hs with h2; rw [← h2]; exact h, ?_⟩
        intro j s' hj
        omega
      · rw [findActiveSegment, if_pos h]
        constructor
        · intro h'
          exact Option.noConfusion h'
        · intro hall
          exact absurd h (hall a (List.mem_cons_self a rest))
    · refine ⟨?_, ?_⟩
      · intro seg hs
        rw [findActiveSegment, if_neg h] at hs
        obtain ⟨i, seg', hget, hseg, hcont, hfirst⟩ := ih.1 seg hs
        refine ⟨i + 1, seg', hget, hseg, hcont, ?_⟩
        intro j s' hj hjget
        cases j with
        | zero =>
          injection hjget with h0
          rw [← h0]
          exact h
        | succ k =>
          exact hfirst k s' (Nat.lt_of_succ_lt_succ hj) hjget
      · rw [findActiveSegment, if_neg h, ih.2]
        constructor
        · intro hall s hmem
          rcases List.mem_cons.mp hmem with h1 | h1
          · rw [h1]; exact h
          · exact hall s h1
        · intro hall s hmem
          exact hall s (List.mem_cons_of_mem a hmem)

/-- Three demo pauses mirroring the spec's example clip. -/
def demoSegments : List TranscriptSegment :=
  [⟨2, 4, "first pause", none⟩, ⟨30, 31, "second pause", none⟩,
   ⟨80, 82, "third pause", none⟩]

/-- Witness for `caption_lookup_spec`: an out-of-range query time yields no
active caption. -/
theorem caption_lookup_spec_witness :
    findActiveSegment 100 demoSegments = none :=
  (caption_lookup_spec demoSegments 100).2.mpr (by decide)

/-! ## Fenced-JSON edit-action extraction (useVideoChat.sendMessage)

Character-list model of the two regular expressions used after streaming:
the capture regex on assistant text (lazy body between a literal
fence-json opener, optional newlines, and a closing fence) and the global
removal regex used to finalise the message.  The platform JSON parser is a
function parameter. -/

/-- JavaScript string whitespace (the ASCII part). -/
def isWSChar (c : Char) : Bool :=
  c = ' ' ∨ c = '\t' ∨ c = '\n' ∨ c = '\r' ∨ c = '\x0b' ∨ c = '\x0c'

/-- JavaScript `String.prototype.trim` on a character list. -/
def trimWS (l : List Char) : List Char :=
  ((l.dropWhile isWSChar).reverse.dropWhile isWSChar).reverse

/-- Whether `p` begins `s`. -/
def leadsWith : List Char → List Char → Bool
  | [], _ => true
  | _ :: _, [] => false
  | p :: ps, c :: cs => if p = c then leadsWith ps cs else false

/-- The literal opener of a fenced JSON block. -/
def fenceJson : List Char := ['`', '`', '`', 'j', 's', 'o', 'n']

/-- A closing code fence. -/
def fence : List Char := ['`', '`', '`']

/-- Whether a closing fence occurs anywhere in `l`. -/
def hasFence : List Char → Bool
  | [] => false
  | c :: cs => leadsWith fence (c :: cs) || hasFence cs

/-- The lazy part of the capture regex: the shortest prefix of the input
after which a closing fence (with its optional preceding newline)
follows.  Returns the captured body, or nothing if no close exists. -/
def lazyCapture : List Char → Option (List Char)
  | [] => none
  | c :: cs =>
    if leadsWith fence (c :: cs) || leadsWith ('\n' :: fence) (c :: cs) then some []
    else
      match lazyCapture cs with
      | none => none
      | some b => some (c :: b)

/-- The capture regex anchored at the start of `s`: a fence-json opener,
a greedy optional newline (tried first, with backtracking), the lazy body,
an optional newline and a closing fence. -/
def matchAt (s : List Char) : Option (List Char) :=
  if leadsWith fenceJson s then
    let t := s.drop 7
    if t.head? = some '\n' then
      match lazyCapture t.tail with
      | some b => some b
      | none => lazyCapture t
    else lazyCapture t
  else none

/-- Leftmost match of the capture regex
(`assistantContent.match` with pattern fence-json, optional newline, lazy
body, optional newline, closing fence): the first start position whose
anchored match succeeds wins. -/
def extractFenced : List Char → Option (List Char)
  | [] => none
  | c :: cs =>
    match matchAt (c :: cs) with
    | some b => some b
    | none => extractFenced cs

/-- The parsed fields of a fenced edit-action JSON object. -/
structure EditData where
  editType : Option String
  description : Option String
deriving DecidableEq, Repr

/-- The `EditAction` object built by `sendMessage` (the fresh id and
timestamp are platform values and are elided). -/
structure EditActionModel where
  actionType : String
  description : String
  applied : Bool
deriving DecidableEq, Repr

/-- The edit-action extraction at the end of `sendMessage`
(useAnimationWorkflow.ts lines 380-401): match the fenced block, parse its
body with the platform JSON parser (`parseEdit`; a parse failure is
swallowed), and build the action with the JavaScript `||` fallbacks. -/
def extractEditAction (parseEdit : List Char → Option EditData)
    (assistantContent : List Char) (userContent : String) : Option EditActionModel :=
  match extractFenced assistantContent with
  | none => none
  | some body =>
    match parseEdit body with
    | none => none
    | some editData =>
      some { actionType := jsOrString editData.editType "effect"
             description := jsOrString editData.description (userContent.take 50)
             applied := true }

/-- Lazy close search of the removal regex: drop everything up to and
including the first closing fence, or report that none exists. -/
def findClose : List Char → Option (List Char)
  | [] => none
  | c :: cs => if leadsWith fence (c :: cs) then some ((c :: cs).drop 3) else findClose cs

/-- Fuelled worker for the global removal regex. -/
def removeJsonBlocksF : ℕ → List Char → List Char
  | 0, l => l
  | _ + 1, [] => []
  | f + 1, c :: cs =>
    if leadsWith fenceJson (c :: cs) then
      match findClose ((c :: cs).drop 7) with
      | some rest => removeJsonBlocksF f rest
      | none => c :: removeJsonBlocksF f cs
    else c :: removeJsonBlocksF f cs

/-- The global replacement `assistantContent.replace(fenced-json-block
pattern, empty)` used when finalising the assistant message. -/
def removeJsonBlocks (l : List Char) : List Char :=
  removeJsonBlocksF l.length l

/-- The finalised assistant message content: every fenced JSON block
removed, then trimmed (`.replace(...).trim()`,
useAnimationWorkflow.ts line 406). -/
def finalizeContent (assistantContent : List Char) : List Char :=
  trimWS (removeJsonBlocks assistantContent)

/-- Spec-side shape of a streamed assistant text: plain prose segments
interleaved with well-formed fenced JSON blocks. -/
def buildChat : List (List Char × List Char) → List Char → List Char
  | [], tail => tail
  | (p, b) :: rest, tail =>
    p ++ fenceJson ++ b ++ fence ++ buildChat rest tail

theorem leadsWith_false_of_head (p : Char) (ps l : List Char)
    (h : l.head? ≠ some p) : leadsWith (p :: ps) l = false := by
  cases l with
  | nil => rfl
  | cons c cs =>
    have hpc : p ≠ c := fun hpc => h (by rw [hpc]; rfl)
    simp [leadsWith, hpc]

theorem leadsWith_append_self (p l : List Char) : leadsWith p (p ++ l) = true := by
  induction p with
  | nil => rfl
  | cons c cs ih => simp [leadsWith, ih]

theorem findClose_none_of_ne (c : Char) (cs : List Char) (h : c ≠ '`') :
    findClose (c :: cs) = findClose cs := by
  have hcond : leadsWith fence (c :: cs) = false := by
    rw [show fence = '`' :: ['`', '`'] from rfl]
    exact leadsWith_false_of_head '`' _ _ (fun hh => h (by simpa using hh))
  rw [findClose, if_neg (by rw [hcond]; exact Bool.false_ne_true)]

theorem findClose_length (u rest : List Char) (h : findClose u = some rest) :
    rest.length ≤ u.length := by
  induction u generalizing rest with
  | nil => simp [findClose] at h
  | cons d ds ih =>
    rw [findClose] at h
    split at h
    · cases h
      simp only [List.length_drop]
      omega
    · have := ih rest h
      simp only [List.length_cons]
      omega

theorem findClose_through (b post : List Char) (hb : '`' ∉ b) :
    findClose (b ++ (fence ++ post)) = some post := by
  induction b with
  | nil =>
    have h1 : leadsWith fence (fence ++ post) = true := leadsWith_append_self fence post
    show findClose (fence ++ post) = some post
    rw [show fence ++ post = '`' :: ('`' :: ('`' :: post)) from rfl] at h1 ⊢
    rw [findClose, if_pos h1]
    rfl
  | cons x b' ih =>
    have hx : x ≠ '`' := fun hxe => hb (by rw [hxe]; exact List.mem_cons_self _ _)
    have hstep := findClose_none_of_ne x (b' ++ (fence ++ post)) hx
    calc findClose (x :: b' ++ (fence ++ post)) = findClose (b' ++ (fence ++ post)) := hstep
      _ = some post := ih (fun hmem => hb (List.mem_cons_of_mem _ hmem))

theorem removeJsonBlocksF_fuel (f f' : ℕ) (l : List Char)
    (h : l.length ≤ f) (h' : l.length ≤ f') :
    removeJsonBlocksF f l = removeJsonBlocksF f' l := by
  induction f generalizing f' l with
  | zero =>
    have hl : l = [] := List.length_eq_zero.mp (Nat.le_zero.mp h)
    subst hl
    cases f' <;> rfl
  | succ f ih =>
    cases l with
    | nil => cases f' <;> rfl
    | cons c cs =>
      cases f' with
      | zero => exact absurd h' (by simp)
      | succ f'' =>
        have hcs : cs.length ≤ f := Nat.le_of_succ_le_succ h
        have hcs' : cs.length ≤ f'' := Nat.le_of_succ_le_succ h'
        rw [removeJsonBlocksF, removeJsonBlocksF]
        by_cases hjson : leadsWith fenceJson (c :: cs) = true
        · rw [if_pos hjson, if_pos hjson]
          cases hfc : findClose ((c :: cs).drop 7) with
          | none => rw [ih f'' cs hcs hcs']
          | some rest =>
            have hrest : rest.length ≤ cs.length := by
              have h1 := findClose_length _ _ hfc
              simp only [List.length_drop, List.length_cons] at h1
              omega
            exact ih f'' rest (le_trans hrest hcs) (le_trans hrest hcs')
        · rw [if_neg hjson, if_neg hjson, ih f'' cs hcs hcs']

theorem removeJsonBlocks_cons (c : Char) (cs : List Char) :
    removeJsonBlocks (c :: cs) =
      if leadsWith fenceJson (c :: cs) then
        match findClose ((c :: cs).drop 7) with
        | some r => removeJsonBlocks r
        | none => c :: removeJsonBlocks cs
      else c :: removeJsonBlocks cs := by
  show removeJsonBlocksF (cs.length + 1) (c :: cs) = _
  rw [removeJsonBlocksF]
  by_cases hjson : leadsWith fenceJson (c :: cs) = true
  · rw [if_pos hjson, if_pos hjson]
    cases hfc : findClose ((c :: cs).drop 7) with
    | none => rfl
    | some rest =>
      have hrest : rest.length ≤ cs.length := by
        have h1 := findClose_length _ _ hfc
        simp only [List.length_drop, List.length_cons] at h1
        omega
      exact removeJsonBlocksF_fuel cs.length rest.length rest hrest (le_refl _)
  · rw [if_neg hjson, if_neg hjson]
    rfl

theorem removeJsonBlocks_plain (p rest : List Char) (hp : '`' ∉ p) :
    removeJsonBlocks (p ++ rest) = p ++ removeJsonBlocks rest := by
  induction p with
  | nil => rfl
  | cons x p' ih =>
    have hx : x ≠ '`' := fun hxe => hp (by rw [hxe]; exact List.mem_cons_self _ _)
    have hp' : '`' ∉ p' := fun hmem => hp (List.mem_cons_of_mem _ hmem)
    have hcond : leadsWith fenceJson (x :: (p' ++ rest)) = false :=
      leadsWith_false_of_head '`' _ _ (fun hh => hx (Option.some.inj hh))
    show removeJsonBlocks (x :: (p' ++ rest)) = _
    rw [removeJsonBlocks_cons, if_neg (by rw [hcond]; exact Bool.false_ne_true), ih hp']
    simp

theorem removeJsonBlocks_nil : removeJsonBlocks [] = [] := rfl

theorem removeJsonBlocks_buildChat (pairs : List (List Char × List Char))
    (tail : List Char)
    (hpairs : ∀ pb ∈ pairs, '`' ∉ pb.1 ∧ '`' ∉ pb.2) (htail : '`' ∉ tail) :
    removeJsonBlocks (buildChat pairs tail) =
      List.flatten (pairs.map (fun pb => pb.1)) ++ tail := by
  induction pairs with
  | nil =>
    have h := removeJsonBlocks_plain tail [] htail
    rw [List.append_nil, removeJsonBlocks_nil, List.append_nil] at h
    simpa using h
  | cons pb rest ih =>
    obtain ⟨p, b⟩ := pb
    have hp : '`' ∉ p := (hpairs (p, b) (List.mem_cons_self _ _)).1
    have hb : '`' ∉ b := (hpairs (p, b) (List.mem_cons_self _ _)).2
    have hassoc : buildChat ((p, b) :: rest) tail =
        p ++ ('`' :: ('`' :: ('`' :: ('j' :: ('s' :: ('o' :: ('n' ::
          (b ++ (fence ++ buildChat rest tail))))))))) := by
      show p ++ fenceJson ++ b ++ fence ++ buildChat rest tail = _
      simp [fenceJson]
    rw [hassoc, removeJsonBlocks_plain p _ hp]
    have hlw : leadsWith fenceJson ('`' :: ('`' :: ('`' :: ('j' :: ('s' :: ('o' :: ('n' ::
        (b ++ (fence ++ buildChat rest tail))))))))) = true := by
      have h := leadsWith_append_self fenceJson (b ++ (fence ++ buildChat rest tail))
      simpa [fenceJson] using h
    have hfc : findClose (b ++ (fence ++ buildChat rest tail)) = some (buildChat rest tail) :=
      findClose_through b (buildChat rest tail) hb
    rw [removeJsonBlocks_cons, if_pos hlw]
    have hdrop : (('`' :: ('`' :: ('`' :: ('j' :: ('s' :: ('o' :: ('n' ::
        (b ++ (fence ++ buildChat rest tail))))))))).drop 7) =
        b ++ (fence ++ buildChat rest tail) := rfl
    rw [hdrop]
    simp only [hfc]
    rw [ih (fun q hq => hpairs q (List.mem_cons_of_mem _ hq))]
    simp

/-- C10: when the accumulated assistant text is plain prose interleaved
with well-formed fenced JSON blocks (prose and bodies free of backticks),
the finalised message content equals the concatenated prose with every
fenced block removed, trimmed — the raw fenced JSON never appears in the
message shown to the user. -/
theorem finalized_content_strips_blocks (pairs : List (List Char × List Char))
    (tail : List Char)
    (hpairs : ∀ pb ∈ pairs, '`' ∉ pb.1 ∧ '`' ∉ pb.2) (htail : '`' ∉ tail) :
    finalizeContent (buildChat pairs tail) =
      trimWS (List.flatten (pairs.map (fun pb => pb.1)) ++ tail) := by
  unfold finalizeContent
  rw [removeJsonBlocks_buildChat pairs tail hpairs htail]

/-- A one-block chat transcript used as concrete input. -/
def demoChatPairs : List (List Char × List Char) :=
  [("Trimmed the intro! ".toList,
    "\x7b\"editType\":\"cut\"\x7d".toList)]

/-- Prose following the block in the concrete transcript. -/
def demoChatTail : List Char := " Anything else?".toList

/-- Witness for `finalized_content_strips_blocks` on a concrete one-block
transcript. -/
theorem finalized_content_strips_blocks_witness :
    finalizeContent (buildChat demoChatPairs demoChatTail) =
      trimWS (List.flatten (demoChatPairs.map (fun pb => pb.1)) ++ demoChatTail) :=
  finalized_content_strips_blocks demoChatPairs demoChatTail (by decide) (by decide)

theorem extractFenced_skip (pre X : List Char)
    (hpre : ∀ i, i < pre.length → leadsWith fenceJson ((pre ++ X).drop i) = false) :
    extractFenced (pre ++ X) = extractFenced X := by
  induction pre with
  | nil => rfl
  | cons c pre' ih =>
    have h0 : leadsWith fenceJson (c :: (pre' ++ X)) = false := by
      have h := hpre 0 (by simp)
      simpa using h
    have hm : matchAt (c :: (pre' ++ X)) = none := by
      rw [matchAt, if_neg (by rw [h0]; exact Bool.false_ne_true)]
    show extractFenced (c :: (pre' ++ X)) = _
    rw [extractFenced, hm]
    refine ih (fun i hi => ?_)
    have h := hpre (i + 1) (by simp only [List.length_cons]; omega)
    simpa using h

theorem lazyCapture_at_close (body post : List Char) (hb : '`' ∉ body) :
    lazyCapture (body ++ '\n' :: (fence ++ post)) = some body := by
  induction body with
  | nil =>
    have h2 : leadsWith ('\n' :: fence) ('\n' :: (fence ++ post)) = true := by
      rw [leadsWith, if_pos rfl]
      exact leadsWith_append_self fence post
    show lazyCapture ('\n' :: (fence ++ post)) = some []
    rw [lazyCapture, if_pos (by rw [h2, Bool.or_true])]
  | cons x b' ih =>
    have hx : x ≠ '`' := fun hxe => hb (by rw [hxe]; exact List.mem_cons_self _ _)
    have hb' : '`' ∉ b' := fun hmem => hb (List.mem_cons_of_mem _ hmem)
    have c1 : leadsWith fence (x :: (b' ++ '\n' :: (fence ++ post))) = false := by
      rw [show fence = '`' :: ['`', '`'] from rfl]
      exact leadsWith_false_of_head '`' _ _ (fun hh => hx (by simpa using hh))
    have c2 : leadsWith ('\n' :: fence) (x :: (b' ++ '\n' :: (fence ++ post))) = false := by
      rw [leadsWith]
      by_cases hnx : '\n' = x
      · rw [if_pos hnx, show fence = '`' :: ['`', '`'] from rfl]
        apply leadsWith_false_of_head
        cases b' with
        | nil => simp
        | cons y ys =>
          have hy : y ≠ '`' := fun he => hb' (by rw [he]; exact List.mem_cons_self _ _)
          simp [hy]
      · rw [if_neg hnx]
    show lazyCapture (x :: (b' ++ '\n' :: (fence ++ post))) = some (x :: b')
    rw [lazyCapture, if_neg (by rw [c1, c2]; simp), ih hb']

theorem matchAt_block (body post : List Char) (hb : '`' ∉ body) :
    matchAt (fenceJson ++ ('\n' :: (body ++ '\n' :: (fence ++ post)))) = some body := by
  rw [matchAt, if_pos (leadsWith_append_self fenceJson _)]
  have hdrop : (fenceJson ++ ('\n' :: (body ++ '\n' :: (fence ++ post)))).drop 7 =
      '\n' :: (body ++ '\n' :: (fence ++ post)) := rfl
  simp only [hdrop, List.head?_cons, List.tail_cons, if_pos rfl]
  rw [lazyCapture_at_close body post hb]
  simp

theorem extractFenced_at_block (body post : List Char) (hb : '`' ∉ body) :
    extractFenced (fenceJson ++ ('\n' :: (body ++ '\n' :: (fence ++ post)))) = some body := by
  have hshape : fenceJson ++ ('\n' :: (body ++ '\n' :: (fence ++ post))) =
      '`' :: ('`' :: ('`' :: ('j' :: ('s' :: ('o' :: ('n' ::
        ('\n' :: (body ++ '\n' :: (fence ++ post))))))))) := by
    simp [fenceJson]
  have hm := matchAt_block body post hb
  rw [hshape] at hm ⊢
  rw [extractFenced, hm]

theorem extractEditAction_some (parseEdit : List Char → Option EditData)
    (a : List Char) (u : String) (body : List Char)
    (h : extractFenced a = some body) :
    extractEditAction parseEdit a u =
      match parseEdit body with
      | none => none
      | some editData =>
        some { actionType := jsOrString editData.editType "effect"
               description := jsOrString editData.description (u.take 50)
               applied := true } := by
  rw [extractEditAction, h]

/-- The accumulated assistant text containing one canonical fenced JSON
block between prose `pre` and `post`. -/
def chatTextOf (pre body post : List Char) : List Char :=
  pre ++ (fenceJson ++ ('\n' :: (body ++ '\n' :: (fence ++ post))))

/-- C7: when the assistant text contains exactly one fenced JSON block
(the opener not occurring inside the preceding prose, the body free of
backticks) whose body the platform parser reads as an edit action with
non-empty `editType` and `description`, extraction succeeds and yields the
action with those same fields; when the text has no fenced block, or the
block body fails to parse, extraction yields no action without throwing
(totality of the model), and the plain-text message is still produced. -/
theorem extractEditAction_spec (parseEdit : List Char → Option EditData)
    (pre body post : List Char) (userContent : String) (ty desc : String)
    (hpre : ∀ i, i < pre.length →
      leadsWith fenceJson ((chatTextOf pre body post).drop i) = false)
    (hbody : '`' ∉ body)
    (hparse : parseEdit body = some ⟨some ty, some desc⟩)
    (hty : ty ≠ "") (hdesc : desc ≠ "") :
    extractFenced (chatTextOf pre body post) = some body ∧
    extractEditAction parseEdit (chatTextOf pre body post) userContent =
      some ⟨ty, desc, true⟩ ∧
    (∀ t u, extractFenced t = none → extractEditAction parseEdit t u = none) ∧
    (∀ t u b', extractFenced t = some b' → parseEdit b' = none →
      extractEditAction parseEdit t u = none) := by
  have hef : extractFenced (chatTextOf pre body post) = some body := by
    have h1 := extractFenced_skip pre
      (fenceJson ++ ('\n' :: (body ++ '\n' :: (fence ++ post)))) hpre
    show extractFenced
      (pre ++ (fenceJson ++ ('\n' :: (body ++ '\n' :: (fence ++ post))))) = some body
    rw [h1]
    exact extractFenced_at_block body post hbody
  refine ⟨hef, ?_, ?_, ?_⟩
  · rw [extractEditAction_some parseEdit _ userContent body hef, hparse]
    simp [jsOrString, hty, hdesc]
  · intro t u h
    rw [extractEditAction, h]
  · intro t u b' h1 h2
    rw [extractEditAction_some parseEdit t u b' h1, h2]

/-- Platform JSON parse oracle agreeing with `JSON.parse` on the concrete
body used by the witness. -/
def demoParseEdit : List Char → Option EditData :=
  fun b =>
    if b = "\x7b\"editType\":\"cut\",\"description\":\"Trim the intro\"\x7d".toList then
      some ⟨some "cut", some "Trim the intro"⟩
    else none

/-- Prose before the block in the witness transcript. -/
def demoPre : List Char := "Here is the edit: ".toList

/-- The fenced JSON body in the witness transcript. -/
def demoBody : List Char :=
  "\x7b\"editType\":\"cut\",\"description\":\"Trim the intro\"\x7d".toList

/-- Prose after the block in the witness transcript. -/
def demoPost : List Char := " Done.".toList

/-- Witness for `extractEditAction_spec` on a concrete transcript. -/
theorem extractEditAction_spec_witness :
    extractEditAction demoParseEdit (chatTextOf demoPre demoBody demoPost) "please cut" =
      some ⟨"cut", "Trim the intro", true⟩ :=
  (extractEditAction_spec demoParseEdit demoPre demoBody demoPost "please cut" "cut"
    "Trim the intro" (by decide) (by decide) (by decide) (by decide) (by decide)).2.1

/-! ## SSE stream reconciler (useVideoChat.sendMessage, lines 341-377)

The streaming loop buffers text, extracts complete lines, skips comments
and blank lines, handles `data: ` lines (the `[DONE]` sentinel breaks the
inner loop; a JSON parse failure re-buffers the line with its newline
restored), and appends extracted content deltas to the assistant text.
The platform `JSON.parse`-plus-delta-extraction is a function parameter
`pd`: `none` models a parse failure, `some none` a parsed event without a
content delta, `some (some d)` a content delta `d`. -/

/-- Why one pass of the line-processing loop stopped: out of complete
lines (`more`), a re-buffered unparseable line (`stuck`), or the `[DONE]`
sentinel (`done`).  The stop kind is ghost data for the proofs; the code
itself keeps only the buffer and the accumulated text. -/
inductive StopKind
  | more
  | stuck
  | done
deriving DecidableEq, Repr

/-- Result of one pass of the inner line-processing loop. -/
structure ProcOut where
  buffer : List Char
  acc : List Char
  stop : StopKind
deriving DecidableEq, Repr

/-- The reconciler state carried between chunk reads: the text buffer and
the accumulated assistant content. -/
structure SSEState where
  buffer : List Char
  acc : List Char
deriving DecidableEq, Repr

/-- Split at the first newline: the line before it and the remainder. -/
def splitAtNewline : List Char → Option (List Char × List Char)
  | [] => none
  | c :: cs =>
    if c = '\n' then some ([], cs)
    else
      match splitAtNewline cs with
      | none => none
      | some (l, r) => some (c :: l, r)

/-- `if (line.endsWith('\r')) line = line.slice(0, -1)`. -/
def stripCR (l : List Char) : List Char :=
  if l.getLast? = some '\r' then l.dropLast else l

/-- The `data: ` prefix required of payload lines. -/
def dataPrefix : List Char := ['d', 'a', 't', 'a', ':', ' ']

/-- The `[DONE]` sentinel. -/
def doneToken : List Char := ['[', 'D', 'O', 'N', 'E', ']']

/-- `line.startsWith(':') || line.trim() === ''`. -/
def isCommentOrBlankL (l : List Char) : Bool :=
  decide (l.head? = some ':') || (trimWS l).isEmpty

/-- `line.slice(6).trim()`. -/
def payloadOf (l : List Char) : List Char := trimWS (l.drop 6)

/-- Fuelled inner loop: extract complete lines from the buffer and process
each as the code does, stopping on buffer exhaustion, the done sentinel,
or a parse failure (which re-buffers the line with its newline). -/
def processF (pd : List Char → Option (Option (List Char))) :
    ℕ → List Char → List Char → ProcOut
  | 0, buf, acc => ⟨buf, acc, .more⟩
  | f + 1, buf, acc =>
    match splitAtNewline buf with
    | none => ⟨buf, acc, .more⟩
    | some (line0, rest) =>
      if isCommentOrBlankL (stripCR line0) then processF pd f rest acc
      else if leadsWith dataPrefix (stripCR line0) then
        if payloadOf (stripCR line0) = doneToken then ⟨rest, acc, .done⟩
        else
          match pd (payloadOf (stripCR line0)) with
          | none => ⟨stripCR line0 ++ '\n' :: rest, acc, .stuck⟩
          | some none => processF pd f rest acc
          | some (some d) =>
            processF pd f rest (if d.isEmpty then acc else acc ++ d)
      else processF pd f rest acc

/-- One pass of the inner loop over the whole buffer. -/
def process (pd : List Char → Option (Option (List Char)))
    (buf acc : List Char) : ProcOut :=
  processF pd buf.length buf acc

/-- One outer-loop iteration: append the decoded chunk to the buffer and
run the inner line loop. -/
def feed (pd : List Char → Option (Option (List Char)))
    (st : SSEState) (chunk : List Char) : SSEState :=
  ⟨(process pd (st.buffer ++ chunk) st.acc).buffer,
   (process pd (st.buffer ++ chunk) st.acc).acc⟩

/-- The whole streaming loop over a chunk sequence, from the empty
state. -/
def runChunks (pd : List Char → Option (Option (List Char)))
    (chunks : List (List Char)) : SSEState :=
  chunks.foldl (feed pd) ⟨[], []⟩

/-- Structural split of a buffer into its complete lines and the trailing
partial line. -/
def splitLines : List Char → List (List Char) × List Char
  | [] => ([], [])
  | c :: cs =>
    if c = '\n' then ([] :: (splitLines cs).1, (splitLines cs).2)
    else
      match splitLines cs with
      | (l :: ls, part) => ((c :: l) :: ls, part)
      | ([], part) => ([], c :: part)

/-- The complete lines of a buffer. -/
def completeLines (buf : List Char) : List (List Char) := (splitLines buf).1

/-- The trailing partial line of a buffer. -/
def leftoverL (buf : List Char) : List Char := (splitLines buf).2

/-- Whether a raw buffered line is a `data: ` line once CR-stripped. -/
def isDataLine (l : List Char) : Bool := leadsWith dataPrefix (stripCR l)

/-- Whether a raw buffered line is the `[DONE]` sentinel line. -/
def isDoneLine (l : List Char) : Bool :=
  isDataLine l && decide (payloadOf (stripCR l) = doneToken)

/-- The amended hypothesis of the chunking-invariance property: after the
first `[DONE]` line, no complete line is a `data: ` line. -/
def noDataAfterDone : List (List Char) → Bool
  | [] => true
  | l :: rest =>
    if isDoneLine l then rest.all (fun l' => !(isDataLine l'))
    else noDataAfterDone rest

theorem splitAtNewline_some (buf l r : List Char)
    (h : splitAtNewline buf = some (l, r)) :
    buf = l ++ '\n' :: r ∧ '\n' ∉ l := by
  induction buf generalizing l r with
  | nil => simp [splitAtNewline] at h
  | cons c cs ih =>
    rw [splitAtNewline] at h
    by_cases hc : c = '\n'
    · rw [if_pos hc] at h
      injection h with h1
      injection h1 with h2 h3
      subst hc
      subst h3
      rw [← h2]
      exact ⟨rfl, by simp⟩
    · rw [if_neg hc] at h
      cases hs : splitAtNewline cs with
      | none => rw [hs] at h; exact absurd h (by simp)
      | some p =>
        obtain ⟨l', r'⟩ := p
        rw [hs] at h
        injection h with h1
        injection h1 with h2 h3
        obtain ⟨hcs, hnl⟩ := ih l' r' hs
        subst h3
        rw [← h2, hcs]
        refine ⟨by simp, ?_⟩
        intro hmem
        rcases List.mem_cons.mp hmem with h4 | h4
        · exact hc h4.symm
        · exact hnl h4

theorem splitAtNewline_cons_nl (l r : List Char) (hl : '\n' ∉ l) :
    splitAtNewline (l ++ '\n' :: r) = some (l, r) := by
  induction l with
  | nil => simp [splitAtNewline]
  | cons c cs ih =>
    have hc : c ≠ '\n' := fun hce => hl (by rw [hce]; exact List.mem_cons_self _ _)
    have hcs : '\n' ∉ cs := fun hmem => hl (List.mem_cons_of_mem _ hmem)
    show splitAtNewline (c :: (cs ++ '\n' :: r)) = some (c :: cs, r)
    rw [splitAtNewline, if_neg hc, ih hcs]

theorem splitAtNewline_append (buf c l r : List Char)
    (h : splitAtNewline buf = some (l, r)) :
    splitAtNewline (buf ++ c) = some (l, r ++ c) := by
  obtain ⟨hbuf, hnl⟩ := splitAtNewline_some buf l r h
  rw [hbuf, List.append_assoc, List.cons_append]
  exact splitAtNewline_cons_nl l (r ++ c) hnl

theorem stripCR_cases (l : List Char) :
    stripCR l = l ∨ ∃ u, l = u ++ ['\r'] ∧ stripCR l = u := by
  unfold stripCR
  by_cases h : l.getLast? = some '\r'
  · right
    refine ⟨l.dropLast, ?_, by rw [if_pos h]⟩
    exact (List.dropLast_append_getLast? '\r' (Option.mem_def.mpr h)).symm
  · left
    rw [if_neg h]

theorem stripCR_no_newline (l : List Char) (h : '\n' ∉ l) :
    '\n' ∉ stripCR l := by
  rcases stripCR_cases l with hc | ⟨u, hu, hc⟩
  · rw [hc]; exact h
  · rw [hc]
    intro hmem
    exact h (by rw [hu]; exact List.mem_append_left _ hmem)

theorem leadsWith_iff_append (p l : List Char) :
    leadsWith p l = true ↔ ∃ s, l = p ++ s := by
  induction p generalizing l with
  | nil => simp [leadsWith]
  | cons c cs ih =>
    cases l with
    | nil =>
      simp only [leadsWith]
      constructor
      · intro h; exact absurd h (by simp)
      · rintro ⟨s, hs⟩
        exact absurd hs (by simp)
    | cons x xs =>
      rw [leadsWith]
      by_cases hcx : c = x
      · rw [if_pos hcx, ih]
        subst hcx
        constructor
        · rintro ⟨s, hs⟩
          exact ⟨s, by rw [hs]; rfl⟩
        · rintro ⟨s, hs⟩
          refine ⟨s, ?_⟩
          rw [List.cons_append] at hs
          injection hs
      · rw [if_neg hcx]
        constructor
        · intro h; exact absurd h (by simp)
        · rintro ⟨s, hs⟩
          rw [List.cons_append] at hs
          injection hs with h1
          exact absurd h1.symm hcx

theorem trimWS_append_cr (u : List Char) : trimWS (u ++ ['\r']) = trimWS u := by
  unfold trimWS
  congr 1
  have hdw : ∀ v : List Char, (v ++ ['\r']).dropWhile isWSChar =
      if (v.dropWhile isWSChar).isEmpty then List.dropWhile isWSChar ['\r']
      else v.dropWhile isWSChar ++ ['\r'] := by
    intro v
    induction v with
    | nil => simp
    | cons a as ih =>
      by_cases ha : isWSChar a = true
      · rw [List.cons_append, List.dropWhile_cons_of_pos ha,
          List.dropWhile_cons_of_pos ha, ih]
      · rw [List.cons_append, List.dropWhile_cons_of_neg (by simp [ha]),
          List.dropWhile_cons_of_neg (by simp [ha])]
        simp
  rw [hdw u]
  by_cases he : (u.dropWhile isWSChar).isEmpty
  · rw [if_pos he]
    have hu : u.dropWhile isWSChar = [] := by
      rwa [List.isEmpty_iff] at he
    rw [hu]
    simp [isWSChar]
  · rw [if_neg he]
    rw [List.reverse_append]
    show List.dropWhile isWSChar ('\r' :: (u.dropWhile isWSChar).reverse) = _
    rw [List.dropWhile_cons_of_pos (by simp [isWSChar])]

theorem trimWS_stripCR (l : List Char) : trimWS (stripCR l) = trimWS l := by
  rcases stripCR_cases l with hc | ⟨u, hu, hc⟩
  · rw [hc]
  · rw [hc, hu, trimWS_append_cr]

theorem leadsWith_data_stripCR (l : List Char)
    (h : leadsWith dataPrefix l = true) :
    leadsWith dataPrefix (stripCR l) = true ∧
      payloadOf (stripCR l) = payloadOf l := by
  rcases stripCR_cases l with hc | ⟨u, hu, hc⟩
  · rw [hc]; exact ⟨h, rfl⟩
  · obtain ⟨s, hs⟩ := (leadsWith_iff_append _ _).mp h
    rw [hu] at hs
    cases hsr : s.reverse with
    | nil =>
      have hsnil : s = [] := by simpa using congrArg List.reverse hsr
      rw [hsnil, List.append_nil] at hs
      have : l.getLast? = some ' ' := by
        rw [hu, hs]
        simp [dataPrefix]
      rw [hu] at this
      simp at this
    | cons z zs =>
      have hsz : s = zs.reverse ++ [z] := by
        have := congrArg List.reverse hsr
        simpa using this
      rw [hsz, ← List.append_assoc] at hs
      have hz : z = '\r' ∧ u = dataPrefix ++ zs.reverse := by
        have h1 := congrArg (fun t : List Char => t.getLast?) hs
        simp at h1
        have h2 : u = dataPrefix ++ zs.reverse := by
          have := congrArg List.dropLast hs
          simpa using this
        exact ⟨h1.symm, h2⟩
      constructor
      · rw [hc, hz.2]
        exact (leadsWith_iff_append _ _).mpr ⟨zs.reverse, rfl⟩
      · rw [hc, hz.2, hu, hs, hz.1]
        unfold payloadOf
        have hd1 : (dataPrefix ++ zs.reverse).drop 6 = zs.reverse := by
          simp [dataPrefix]
        have hd2 : (dataPrefix ++ zs.reverse ++ ['\r']).drop 6 = zs.reverse ++ ['\r'] := by
          rw [List.append_assoc]
          simp [dataPrefix]
        rw [hd1, hd2, trimWS_append_cr]

theorem splitLines_eq (buf : List Char) :
    splitLines buf =
      match splitAtNewline buf with
      | none => ([], buf)
      | some (l, r) => (l :: (splitLines r).1, (splitLines r).2) := by
  induction buf with
  | nil => rfl
  | cons c cs ih =>
    by_cases hc : c = '\n'
    · subst hc
      rw [splitLines, if_pos rfl, splitAtNewline, if_pos rfl]
    · rw [splitLines, if_neg hc, splitAtNewline, if_neg hc]
      cases hs : splitAtNewline cs with
      | none =>
        rw [hs] at ih
        rw [ih]
      | some p =>
        obtain ⟨l, r⟩ := p
        rw [hs] at ih
        rw [ih]

theorem splitLines_cons_line (l r : List Char) (hl : '\n' ∉ l) :
    splitLines (l ++ '\n' :: r) = (l :: (splitLines r).1, (splitLines r).2) := by
  rw [splitLines_eq, splitAtNewline_cons_nl l r hl]

theorem splitLines_append (x y : List Char) :
    splitLines (x ++ y) =
      ((splitLines x).1 ++ (splitLines ((splitLines x).2 ++ y)).1,
       (splitLines ((splitLines x).2 ++ y)).2) := by
  induction x with
  | nil => simp [splitLines]
  | cons c cs ih =>
    rcases hcs : splitLines cs with ⟨L1, P⟩
    by_cases hc : c = '\n'
    · subst hc
      have e1 : splitLines ('\n' :: cs) = ([] :: L1, P) := by
        rw [splitLines, if_pos rfl, hcs]
      have e2 : splitLines ('\n' :: (cs ++ y)) =
          ([] :: (splitLines (cs ++ y)).1, (splitLines (cs ++ y)).2) := by
        rw [splitLines, if_pos rfl]
      show splitLines ('\n' :: (cs ++ y)) = _
      rw [e2, ih, hcs, e1]
      simp
    · have e2 : splitLines (c :: (cs ++ y)) =
          match splitLines (cs ++ y) with
          | (l :: ls, part) => ((c :: l) :: ls, part)
          | ([], part) => ([], c :: part) := by
        rw [splitLines, if_neg hc]
      have e1 : splitLines (c :: cs) =
          match (L1, P) with
          | (l :: ls, part) => ((c :: l) :: ls, part)
          | ([], part) => ([], c :: part) := by
        rw [splitLines, if_neg hc, hcs]
      show splitLines (c :: (cs ++ y)) = _
      rw [e2, ih, hcs, e1]
      rcases hA : splitLines (P ++ y) with ⟨A, B⟩
      cases L1 with
      | nil =>
        have e3 : splitLines (c :: (P ++ y)) =
            match splitLines (P ++ y) with
            | (l :: ls, part) => ((c :: l) :: ls, part)
            | ([], part) => ([], c :: part) := by
          rw [splitLines, if_neg hc]
        rw [hA] at e3
        simp only [List.nil_append]
        cases A with
        | nil => simp [e3]
        | cons a as => simp [e3]
      | cons l ls =>
        simp [hA]

theorem dropWhile_ne_nil_of_mem (l : List Char) (x : Char)
    (hx : x ∈ l) (hw : isWSChar x = false) :
    l.dropWhile isWSChar ≠ [] := by
  induction l with
  | nil => cases hx
  | cons a as ih =>
    by_cases ha : isWSChar a = true
    · rw [List.dropWhile_cons_of_pos ha]
      have hxa : x ≠ a := fun he => by rw [he] at hw; rw [hw] at ha; cases ha
      rcases List.mem_cons.mp hx with h1 | h1
      · exact absurd h1 hxa
      · exact ih h1
    · rw [List.dropWhile_cons_of_neg (by simp [ha])]
      simp

theorem data_not_blank (m : List Char) (h : leadsWith dataPrefix m = true) :
    isCommentOrBlankL m = false := by
  obtain ⟨s, hs⟩ := (leadsWith_iff_append _ _).mp h
  subst hs
  unfold isCommentOrBlankL
  have h1 : decide ((dataPrefix ++ s).head? = some ':') = false := by
    apply decide_eq_false
    simp [dataPrefix]
  rw [h1]
  simp only [Bool.false_or]
  have hd : dataPrefix ++ s = 'd' :: (['a', 't', 'a', ':', ' '] ++ s) := rfl
  rw [hd]
  have hdw : ('d' :: (['a', 't', 'a', ':', ' '] ++ s)).dropWhile isWSChar =
      'd' :: (['a', 't', 'a', ':', ' '] ++ s) :=
    List.dropWhile_cons_of_neg (by simp [isWSChar])
  unfold trimWS
  rw [hdw]
  apply List.isEmpty_eq_false.mpr
  rw [ne_eq, List.reverse_eq_nil_iff]
  apply dropWhile_ne_nil_of_mem _ 'd'
  · simp
  · decide

theorem processF_fuel (pd : List Char → Option (Option (List Char)))
    (f f' : ℕ) (buf acc : List Char)
    (h : buf.length ≤ f) (h' : buf.length ≤ f') :
    processF pd f buf acc = processF pd f' buf acc := by
  induction f generalizing f' buf acc with
  | zero =>
    have hb : buf = [] := List.length_eq_zero.mp (Nat.le_zero.mp h)
    subst hb
    cases f' with
    | zero => rfl
    | succ f'' => rfl
  | succ f ih =>
    cases buf with
    | nil => cases f' <;> rfl
    | cons c cs =>
      cases f' with
      | zero => exact absurd h' (by simp)
      | succ f'' =>
        rw [processF, processF]
        cases hs : splitAtNewline (c :: cs) with
        | none => rfl
        | some p =>
          obtain ⟨line0, rest⟩ := p
          dsimp only
          have hlen : (c :: cs).length = line0.length + 1 + rest.length := by
            have hb := (splitAtNewline_some _ _ _ hs).1
            rw [hb]
            simp
            omega
          have hrf : rest.length ≤ f := by
            simp only [List.length_cons] at hlen h
            omega
          have hrf' : rest.length ≤ f'' := by
            simp only [List.length_cons] at hlen h'
            omega
          by_cases h1 : isCommentOrBlankL (stripCR line0) = true
          · rw [if_pos h1, if_pos h1, ih f'' rest acc hrf hrf']
          · rw [if_neg h1, if_neg h1]
            by_cases h2 : leadsWith dataPrefix (stripCR line0) = true
            · rw [if_pos h2, if_pos h2]
              by_cases h3 : payloadOf (stripCR line0) = doneToken
              · rw [if_pos h3, if_pos h3]
              · rw [if_neg h3, if_neg h3]
                cases hpd : pd (payloadOf (stripCR line0)) with
                | none => simp only [hpd]
                | some o =>
                  cases o with
                  | none => simp only [hpd]; exact ih f'' rest acc hrf hrf'
                  | some d => simp only [hpd]; exact ih f'' rest _ hrf hrf'
            · rw [if_neg h2, if_neg h2]
              exact ih f'' rest acc hrf hrf'

theorem process_eq (pd : List Char → Option (Option (List Char)))
    (buf acc : List Char) :
    process pd buf acc =
      match splitAtNewline buf with
      | none => ⟨buf, acc, .more⟩
      | some (line0, rest) =>
        if isCommentOrBlankL (stripCR line0) then process pd rest acc
        else if leadsWith dataPrefix (stripCR line0) then
          if payloadOf (stripCR line0) = doneToken then ⟨rest, acc, .done⟩
          else
            match pd (payloadOf (stripCR line0)) with
            | none => ⟨stripCR line0 ++ '\n' :: rest, acc, .stuck⟩
            | some none => process pd rest acc
            | some (some d) => process pd rest (if d.isEmpty then acc else acc ++ d)
        else process pd rest acc := by
  show processF pd buf.length buf acc = _
  cases hs : splitAtNewline buf with
  | none =>
    cases buf with
    | nil => rfl
    | cons c cs =>
      rw [show (c :: cs).length = cs.length + 1 from rfl, processF, hs]
  | some p =>
    obtain ⟨line0, rest⟩ := p
    obtain ⟨hbuf, _⟩ := splitAtNewline_some buf line0 rest hs
    have hlen : buf.length = line0.length + 1 + rest.length := by
      rw [hbuf]
      simp
      omega
    obtain ⟨n, hn⟩ : ∃ n, buf.length = n + 1 := ⟨line0.length + rest.length, by omega⟩
    have hconv : ∀ a : List Char, processF pd n rest a = process pd rest a :=
      fun a => processF_fuel pd n rest.length rest a (by omega) (le_refl _)
    rw [hn, processF, hs]
    simp only [hconv]

theorem process_append_aux (pd : List Char → Option (Option (List Char))) :
    ∀ (f : ℕ) (buf acc c : List Char), buf.length ≤ f →
      (((process pd buf acc).stop = .more →
        process pd (buf ++ c) acc =
          process pd ((process pd buf acc).buffer ++ c) (process pd buf acc).acc) ∧
       ((process pd buf acc).stop ≠ .more →
        process pd (buf ++ c) acc =
          ⟨(process pd buf acc).buffer ++ c, (process pd buf acc).acc,
            (process pd buf acc).stop⟩)) := by
  intro f
  induction f with
  | zero =>
    intro buf acc c hlen
    have hb : buf = [] := List.length_eq_zero.mp (Nat.le_zero.mp hlen)
    subst hb
    exact ⟨fun _ => rfl, fun h => absurd rfl h⟩
  | succ f ihf =>
    intro buf acc c hlen
    cases hs : splitAtNewline buf with
    | none =>
      have h1 : process pd buf acc = ⟨buf, acc, .more⟩ := by rw [process_eq, hs]
      rw [h1]
      exact ⟨fun _ => rfl, fun h => absurd rfl h⟩
    | some p =>
      obtain ⟨line0, rest⟩ := p
      obtain ⟨hbuf, hnl⟩ := splitAtNewline_some buf line0 rest hs
      have hrest : rest.length ≤ f := by
        have hh := congrArg List.length hbuf
        simp at hh
        omega
      have hs2 : splitAtNewline (buf ++ c) = some (line0, rest ++ c) :=
        splitAtNewline_append buf c _ _ hs
      have e1 := process_eq pd buf acc
      have e2 := process_eq pd (buf ++ c) acc
      rw [hs] at e1
      rw [hs2] at e2
      by_cases h1 : isCommentOrBlankL (stripCR line0) = true
      · simp only [if_pos h1] at e1 e2
        rw [e1, e2]
        exact ihf rest acc c hrest
      · simp only [if_neg h1] at e1 e2
        by_cases h2 : leadsWith dataPrefix (stripCR line0) = true
        · simp only [if_pos h2] at e1 e2
          by_cases h3 : payloadOf (stripCR line0) = doneToken
          · simp only [if_pos h3] at e1 e2
            rw [e1, e2]
            exact ⟨fun h => by simp at h, fun _ => rfl⟩
          · simp only [if_neg h3] at e1 e2
            cases hpd : pd (payloadOf (stripCR line0)) with
            | none =>
              simp only [hpd] at e1 e2
              rw [e1, e2]
              refine ⟨fun h => by simp at h, fun _ => ?_⟩
              simp [List.append_assoc]
            | some o =>
              cases o with
              | none =>
                simp only [hpd] at e1 e2
                rw [e1, e2]
                exact ihf rest acc c hrest
              | some d =>
                simp only [hpd] at e1 e2
                rw [e1, e2]
                exact ihf rest _ c hrest
        · simp only [if_neg h2] at e1 e2
          rw [e1, e2]
          exact ihf rest acc c hrest

theorem process_append_more (pd : List Char → Option (Option (List Char)))
    (buf acc c : List Char) (h : (process pd buf acc).stop = .more) :
    process pd (buf ++ c) acc =
      process pd ((process pd buf acc).buffer ++ c) (process pd buf acc).acc :=
  (process_append_aux pd buf.length buf acc c (le_refl _)).1 h

theorem process_append_halt (pd : List Char → Option (Option (List Char)))
    (buf acc c : List Char) (h : (process pd buf acc).stop ≠ .more) :
    process pd (buf ++ c) acc =
      ⟨(process pd buf acc).buffer ++ c, (process pd buf acc).acc,
        (process pd buf acc).stop⟩ :=
  (process_append_aux pd buf.length buf acc c (le_refl _)).2 h

theorem process_stable (pd : List Char → Option (Option (List Char)))
    (buf acc : List Char) (h : (process pd buf acc).stop = .more) :
    process pd (process pd buf acc).buffer (process pd buf acc).acc =
      process pd buf acc := by
  have h2 := process_append_more pd buf acc [] h
  simp only [List.append_nil] at h2
  exact h2.symm

theorem completeLines_cons_line (l r : List Char) (hl : '\n' ∉ l) :
    completeLines (l ++ '\n' :: r) = l :: completeLines r := by
  unfold completeLines
  rw [splitLines_cons_line l r hl]

theorem leftoverL_cons_line (l r : List Char) (hl : '\n' ∉ l) :
    leftoverL (l ++ '\n' :: r) = leftoverL r := by
  unfold leftoverL
  rw [splitLines_cons_line l r hl]

theorem leftoverL_of_none (buf : List Char) (h : splitAtNewline buf = none) :
    leftoverL buf = buf := by
  unfold leftoverL
  rw [splitLines_eq, h]

theorem process_nondata (pd : List Char → Option (Option (List Char))) :
    ∀ (f : ℕ) (buf acc : List Char), buf.length ≤ f →
      (∀ l ∈ completeLines buf, isDataLine l = false) →
      process pd buf acc = ⟨leftoverL buf, acc, .more⟩ := by
  intro f
  induction f with
  | zero =>
    intro buf acc hlen _
    have hb : buf = [] := List.length_eq_zero.mp (Nat.le_zero.mp hlen)
    subst hb
    rfl
  | succ f ih =>
    intro buf acc hlen hnd
    cases hs : splitAtNewline buf with
    | none =>
      rw [process_eq, hs, leftoverL_of_none buf hs]
    | some p =>
      obtain ⟨line0, rest⟩ := p
      obtain ⟨hbuf, hnl⟩ := splitAtNewline_some buf line0 rest hs
      have hrest : rest.length ≤ f := by
        have hh := congrArg List.length hbuf
        simp at hh
        omega
      have hlines : completeLines buf = line0 :: completeLines rest := by
        rw [hbuf]
        exact completeLines_cons_line line0 rest hnl
      have hleft : leftoverL buf = leftoverL rest := by
        rw [hbuf]
        exact leftoverL_cons_line line0 rest hnl
      have h0 : isDataLine line0 = false := by
        apply hnd
        rw [hlines]
        exact List.mem_cons_self _ _
      have hrest_nd : ∀ l ∈ completeLines rest, isDataLine l = false := by
        intro l hl
        apply hnd
        rw [hlines]
        exact List.mem_cons_of_mem _ hl
      unfold isDataLine at h0
      have e := process_eq pd buf acc
      rw [hs] at e
      by_cases h1 : isCommentOrBlankL (stripCR line0) = true
      · simp only [if_pos h1] at e
        rw [e, ih rest acc hrest hrest_nd, hleft]
      · simp only [if_neg h1,
          if_neg (show ¬leadsWith dataPrefix (stripCR line0) = true by
            rw [h0]; exact Bool.false_ne_true)] at e
        rw [e, ih rest acc hrest hrest_nd, hleft]

theorem proc_more_buffer (pd : List Char → Option (Option (List Char))) :
    ∀ (f : ℕ) (buf acc : List Char), buf.length ≤ f →
      (process pd buf acc).stop = .more →
      (process pd buf acc).buffer = leftoverL buf := by
  intro f
  induction f with
  | zero =>
    intro buf acc hlen _
    have hb : buf = [] := List.length_eq_zero.mp (Nat.le_zero.mp hlen)
    subst hb
    rfl
  | succ f ih =>
    intro buf acc hlen hstop
    cases hs : splitAtNewline buf with
    | none =>
      rw [process_eq, hs, leftoverL_of_none buf hs]
    | some p =>
      obtain ⟨line0, rest⟩ := p
      obtain ⟨hbuf, hnl⟩ := splitAtNewline_some buf line0 rest hs
      have hrest : rest.length ≤ f := by
        have hh := congrArg List.length hbuf
        simp at hh
        omega
      have hleft : leftoverL buf = leftoverL rest := by
        rw [hbuf]
        exact leftoverL_cons_line line0 rest hnl
      have e := process_eq pd buf acc
      rw [hs] at e
      rw [hleft]
      by_cases h1 : isCommentOrBlankL (stripCR line0) = true
      · simp only [if_pos h1] at e
        rw [e] at hstop ⊢
        exact ih rest acc hrest hstop
      · by_cases h2 : leadsWith dataPrefix (stripCR line0) = true
        · by_cases h3 : payloadOf (stripCR line0) = doneToken
          · simp only [if_neg h1, if_pos h2, if_pos h3] at e
            rw [e] at hstop
            simp at hstop
          · cases hpd : pd (payloadOf (stripCR line0)) with
            | none =>
              simp only [if_neg h1, if_pos h2, if_neg h3, hpd] at e
              rw [e] at hstop
              simp at hstop
            | some o =>
              cases o with
              | none =>
                simp only [if_neg h1, if_pos h2, if_neg h3, hpd] at e
                rw [e] at hstop ⊢
                exact ih rest acc hrest hstop
              | some d =>
                simp only [if_neg h1, if_pos h2, if_neg h3, hpd] at e
                rw [e] at hstop ⊢
                exact ih rest _ hrest hstop
        · simp only [if_neg h1, if_neg h2] at e
          rw [e] at hstop ⊢
          exact ih rest acc hrest hstop

theorem proc_done_lines (pd : List Char → Option (Option (List Char))) :
    ∀ (f : ℕ) (buf acc : List Char), buf.length ≤ f →
      (process pd buf acc).stop = .done → ∀ y : List Char,
      ∃ pre dl, completeLines (buf ++ y) =
          pre ++ dl :: completeLines ((process pd buf acc).buffer ++ y) ∧
        isDoneLine dl = true := by
  intro f
  induction f with
  | zero =>
    intro buf acc hlen hstop
    have hb : buf = [] := List.length_eq_zero.mp (Nat.le_zero.mp hlen)
    subst hb
    exact StopKind.noConfusion hstop
  | succ f ih =>
    intro buf acc hlen hstop y
    cases hs : splitAtNewline buf with
    | none =>
      have hm : process pd buf acc = ⟨buf, acc, .more⟩ := by rw [process_eq, hs]
      rw [hm] at hstop
      exact StopKind.noConfusion hstop
    | some p =>
      obtain ⟨line0, rest⟩ := p
      obtain ⟨hbuf, hnl⟩ := splitAtNewline_some buf line0 rest hs
      have hrest : rest.length ≤ f := by
        have hh := congrArg List.length hbuf
        simp at hh
        omega
      have hlines : completeLines (buf ++ y) = line0 :: completeLines (rest ++ y) := by
        rw [hbuf, List.append_assoc, List.cons_append]
        exact completeLines_cons_line line0 (rest ++ y) hnl
      have e := process_eq pd buf acc
      rw [hs] at e
      by_cases h1 : isCommentOrBlankL (stripCR line0) = true
      · simp only [if_pos h1] at e
        rw [e] at hstop ⊢
        obtain ⟨pre, dl, hp, hd⟩ := ih rest acc hrest hstop y
        exact ⟨line0 :: pre, dl, by rw [hlines, hp]; rfl, hd⟩
      · by_cases h2 : leadsWith dataPrefix (stripCR line0) = true
        · by_cases h3 : payloadOf (stripCR line0) = doneToken
          · simp only [if_neg h1, if_pos h2, if_pos h3] at e
            rw [e]
            refine ⟨[], line0, ?_, ?_⟩
            · rw [hlines]
              rfl
            · unfold isDoneLine isDataLine
              rw [h2, decide_eq_true h3]
              rfl
          · cases hpd : pd (payloadOf (stripCR line0)) with
            | none =>
              simp only [if_neg h1, if_pos h2, if_neg h3, hpd] at e
              rw [e] at hstop
              simp at hstop
            | some o =>
              cases o with
              | none =>
                simp only [if_neg h1, if_pos h2, if_neg h3, hpd] at e
                rw [e] at hstop ⊢
                obtain ⟨pre, dl, hp, hd⟩ := ih rest acc hrest hstop y
                exact ⟨line0 :: pre, dl, by rw [hlines, hp]; rfl, hd⟩
              | some d =>
                simp only [if_neg h1, if_pos h2, if_neg h3, hpd] at e
                rw [e] at hstop ⊢
                obtain ⟨pre, dl, hp, hd⟩ := ih rest _ hrest hstop y
                exact ⟨line0 :: pre, dl, by rw [hlines, hp]; rfl, hd⟩
        · simp only [if_neg h1, if_neg h2] at e
          rw [e] at hstop ⊢
          obtain ⟨pre, dl, hp, hd⟩ := ih rest acc hrest hstop y
          exact ⟨line0 :: pre, dl, by rw [hlines, hp]; rfl, hd⟩

theorem all_nondata_noDataAfterDone (ls : List (List Char))
    (h : ls.all (fun l => !(isDataLine l)) = true) :
    noDataAfterDone ls = true := by
  induction ls with
  | nil => rfl
  | cons x xs ih =>
    rw [List.all_cons, Bool.and_eq_true] at h
    have hx : isDataLine x = false := by
      have h1 := h.1
      simpa using h1
    have hdone : isDoneLine x = false := by
      unfold isDoneLine
      rw [hx]
      rfl
    rw [noDataAfterDone, if_neg (by rw [hdone]; exact Bool.false_ne_true)]
    exact ih h.2

theorem noDataAfterDone_suffix (xs ys : List (List Char))
    (h : noDataAfterDone (xs ++ ys) = true) : noDataAfterDone ys = true := by
  induction xs with
  | nil => exact h
  | cons x xs' ih =>
    rw [List.cons_append, noDataAfterDone] at h
    by_cases hx : isDoneLine x = true
    · rw [if_pos hx, List.all_append, Bool.and_eq_true] at h
      exact all_nondata_noDataAfterDone ys h.2
    · rw [if_neg hx] at h
      exact ih h

theorem noDataAfterDone_extract (pre suf : List (List Char)) (dl : List Char)
    (h : noDataAfterDone (pre ++ dl :: suf) = true) (hdl : isDoneLine dl = true) :
    ∀ l ∈ suf, isDataLine l = false := by
  induction pre with
  | nil =>
    rw [List.nil_append, noDataAfterDone, if_pos hdl, List.all_eq_true] at h
    intro l hl
    have h2 := h l hl
    simpa using h2
  | cons p pre' ih =>
    rw [List.cons_append, noDataAfterDone] at h
    by_cases hp : isDoneLine p = true
    · rw [if_pos hp, List.all_eq_true] at h
      have hdlmem : dl ∈ pre' ++ dl :: suf :=
        List.mem_append_right _ (List.mem_cons_self _ _)
      have h2 := h dl hdlmem
      have hdata : isDataLine dl = true := by
        unfold isDoneLine at hdl
        exact ((Bool.and_eq_true _ _).mp hdl).1
      rw [hdata] at h2
      simp at h2
    · rw [if_neg hp] at h
      exact ih h

/-- A buffer whose first complete line is an unparseable `data: ` line:
the reconciler re-buffers it forever, so the accumulated text is frozen. -/
def stuckFirst (pd : List Char → Option (Option (List Char)))
    (buf : List Char) : Prop :=
  ∃ l r, splitAtNewline buf = some (l, r) ∧
    leadsWith dataPrefix (stripCR l) = true ∧
    payloadOf (stripCR l) ≠ doneToken ∧
    pd (payloadOf (stripCR l)) = none

theorem proc_stuck_stuckFirst (pd : List Char → Option (Option (List Char))) :
    ∀ (f : ℕ) (buf acc : List Char), buf.length ≤ f →
      (process pd buf acc).stop = .stuck →
      stuckFirst pd (process pd buf acc).buffer := by
  intro f
  induction f with
  | zero =>
    intro buf acc hlen hstop
    have hb : buf = [] := List.length_eq_zero.mp (Nat.le_zero.mp hlen)
    subst hb
    exact StopKind.noConfusion hstop
  | succ f ih =>
    intro buf acc hlen hstop
    cases hs : splitAtNewline buf with
    | none =>
      have hm : process pd buf acc = ⟨buf, acc, .more⟩ := by rw [process_eq, hs]
      rw [hm] at hstop
      exact StopKind.noConfusion hstop
    | some p =>
      obtain ⟨line0, rest⟩ := p
      obtain ⟨hbuf, hnl⟩ := splitAtNewline_some buf line0 rest hs
      have hrest : rest.length ≤ f := by
        have hh := congrArg List.length hbuf
        simp at hh
        omega
      have e := process_eq pd buf acc
      rw [hs] at e
      by_cases h1 : isCommentOrBlankL (stripCR line0) = true
      · simp only [if_pos h1] at e
        rw [e] at hstop ⊢
        exact ih rest acc hrest hstop
      · by_cases h2 : leadsWith dataPrefix (stripCR line0) = true
        · by_cases h3 : payloadOf (stripCR line0) = doneToken
          · simp only [if_neg h1, if_pos h2, if_pos h3] at e
            rw [e] at hstop
            simp at hstop
          · cases hpd : pd (payloadOf (stripCR line0)) with
            | none =>
              simp only [if_neg h1, if_pos h2, if_neg h3, hpd] at e
              rw [e] at hstop ⊢
              refine ⟨stripCR line0, rest, ?_, ?_, ?_, ?_⟩
              · exact splitAtNewline_cons_nl _ _ (stripCR_no_newline line0 hnl)
              · exact (leadsWith_data_stripCR (stripCR line0) h2).1
              · rw [(leadsWith_data_stripCR (stripCR line0) h2).2]
                exact h3
              · rw [(leadsWith_data_stripCR (stripCR line0) h2).2]
                exact hpd
            | some o =>
              cases o with
              | none =>
                simp only [if_neg h1, if_pos h2, if_neg h3, hpd] at e
                rw [e] at hstop ⊢
                exact ih rest acc hrest hstop
              | some d =>
                simp only [if_neg h1, if_pos h2, if_neg h3, hpd] at e
                rw [e] at hstop ⊢
                exact ih rest _ hrest hstop
        · simp only [if_neg h1, if_neg h2] at e
          rw [e] at hstop ⊢
          exact ih rest acc hrest hstop

theorem stuck_feed (pd : List Char → Option (Option (List Char)))
    (buf acc c : List Char) (h : stuckFirst pd buf) :
    (process pd (buf ++ c) acc).acc = acc ∧
      stuckFirst pd (process pd (buf ++ c) acc).buffer := by
  obtain ⟨l, r, hsplit, hdata, hdone, hpd⟩ := h
  obtain ⟨hbuf, hnl⟩ := splitAtNewline_some buf l r hsplit
  have hs2 : splitAtNewline (buf ++ c) = some (l, r ++ c) :=
    splitAtNewline_append buf c _ _ hsplit
  have hblank : isCommentOrBlankL (stripCR l) = false := data_not_blank _ hdata
  have e := process_eq pd (buf ++ c) acc
  rw [hs2] at e
  simp only [if_neg (show ¬isCommentOrBlankL (stripCR l) = true by
      rw [hblank]; exact Bool.false_ne_true),
    if_pos hdata, if_neg hdone, hpd] at e
  rw [e]
  refine ⟨rfl, stripCR l, r ++ c, ?_, ?_, ?_, ?_⟩
  · exact splitAtNewline_cons_nl _ _ (stripCR_no_newline l hnl)
  · exact (leadsWith_data_stripCR (stripCR l) hdata).1
  · rw [(leadsWith_data_stripCR (stripCR l) hdata).2]
    exact hdone
  · rw [(leadsWith_data_stripCR (stripCR l) hdata).2]
    exact hpd

theorem runFrom_stuck (pd : List Char → Option (Option (List Char))) :
    ∀ (cs : List (List Char)) (st : SSEState), stuckFirst pd st.buffer →
      (cs.foldl (feed pd) st).acc = st.acc := by
  intro cs
  induction cs with
  | nil => intro st _; rfl
  | cons c cs' ih =>
    intro st h
    obtain ⟨hacc, hsf⟩ := stuck_feed pd st.buffer st.acc c h
    show (cs'.foldl (feed pd) (feed pd st c)).acc = st.acc
    rw [ih (feed pd st c) hsf]
    exact hacc

theorem runFrom_nondata (pd : List Char → Option (Option (List Char))) :
    ∀ (cs : List (List Char)) (st : SSEState),
      (∀ l ∈ completeLines (st.buffer ++ List.flatten cs), isDataLine l = false) →
      (cs.foldl (feed pd) st).acc = st.acc := by
  intro cs
  induction cs with
  | nil => intro st _; rfl
  | cons c cs' ih =>
    intro st h
    rw [show st.buffer ++ List.flatten (c :: cs') =
        (st.buffer ++ c) ++ List.flatten cs' by simp] at h
    have hsa := splitLines_append (st.buffer ++ c) (List.flatten cs')
    have hpre : ∀ l ∈ completeLines (st.buffer ++ c), isDataLine l = false := by
      intro l hl
      apply h
      unfold completeLines at hl ⊢
      rw [hsa]
      exact List.mem_append_left _ hl
    have hnd := process_nondata pd (st.buffer ++ c).length (st.buffer ++ c)
      st.acc (le_refl _) hpre
    have hfeed : feed pd st c = ⟨leftoverL (st.buffer ++ c), st.acc⟩ := by
      unfold feed
      rw [hnd]
    show (cs'.foldl (feed pd) (feed pd st c)).acc = st.acc
    rw [hfeed, ih ⟨leftoverL (st.buffer ++ c), st.acc⟩ ?_]
    intro l hl
    apply h
    simp only [completeLines, leftoverL] at hl ⊢
    rw [hsa]
    exact List.mem_append_right _ hl

theorem runFrom_main (pd : List Char → Option (Option (List Char))) :
    ∀ (cs : List (List Char)) (st : SSEState),
      process pd st.buffer st.acc = ⟨st.buffer, st.acc, .more⟩ →
      noDataAfterDone (completeLines (st.buffer ++ List.flatten cs)) = true →
      (cs.foldl (feed pd) st).acc =
        (process pd (st.buffer ++ List.flatten cs) st.acc).acc := by
  intro cs
  induction cs with
  | nil =>
    intro st hstable _
    show st.acc = _
    rw [List.flatten_nil, List.append_nil, hstable]
  | cons c cs' ih =>
    intro st hstable hHD
    have hflat : st.buffer ++ List.flatten (c :: cs') =
        (st.buffer ++ c) ++ List.flatten cs' := by simp
    have hfeed : feed pd st c =
        ⟨(process pd (st.buffer ++ c) st.acc).buffer,
         (process pd (st.buffer ++ c) st.acc).acc⟩ := rfl
    show (cs'.foldl (feed pd) (feed pd st c)).acc = _
    rw [hflat] at hHD ⊢
    cases hstop : (process pd (st.buffer ++ c) st.acc).stop with
    | more =>
      have hc := process_append_more pd (st.buffer ++ c) st.acc (List.flatten cs') hstop
      rw [hc, hfeed]
      have hstab2 : process pd (process pd (st.buffer ++ c) st.acc).buffer
          (process pd (st.buffer ++ c) st.acc).acc =
          ⟨(process pd (st.buffer ++ c) st.acc).buffer,
           (process pd (st.buffer ++ c) st.acc).acc, .more⟩ := by
        rw [process_stable pd (st.buffer ++ c) st.acc hstop]
        cases hp : process pd (st.buffer ++ c) st.acc
        rw [hp] at hstop
        simp only at hstop
        rw [hstop]
      have hbuf_more : (process pd (st.buffer ++ c) st.acc).buffer =
          leftoverL (st.buffer ++ c) :=
        proc_more_buffer pd (st.buffer ++ c).length (st.buffer ++ c) st.acc
          (le_refl _) hstop
      have hHD' : noDataAfterDone (completeLines
          ((process pd (st.buffer ++ c) st.acc).buffer ++ List.flatten cs')) = true := by
        rw [hbuf_more]
        have hsa := splitLines_append (st.buffer ++ c) (List.flatten cs')
        simp only [completeLines, leftoverL] at hHD ⊢
        rw [hsa] at hHD
        exact noDataAfterDone_suffix _ _ hHD
      exact ih ⟨(process pd (st.buffer ++ c) st.acc).buffer,
        (process pd (st.buffer ++ c) st.acc).acc⟩ hstab2 hHD'
    | stuck =>
      have hc := process_append_halt pd (st.buffer ++ c) st.acc (List.flatten cs')
        (by rw [hstop]; simp)
      rw [hc, hfeed]
      show (cs'.foldl (feed pd) _).acc = (process pd (st.buffer ++ c) st.acc).acc
      exact runFrom_stuck pd cs' _
        (proc_stuck_stuckFirst pd (st.buffer ++ c).length (st.buffer ++ c) st.acc
          (le_refl _) hstop)
    | done =>
      have hc := process_append_halt pd (st.buffer ++ c) st.acc (List.flatten cs')
        (by rw [hstop]; simp)
      rw [hc, hfeed]
      show (cs'.foldl (feed pd) _).acc = (process pd (st.buffer ++ c) st.acc).acc
      obtain ⟨pre, dl, hp, hd⟩ := proc_done_lines pd (st.buffer ++ c).length
        (st.buffer ++ c) st.acc (le_refl _) hstop (List.flatten cs')
      rw [hp] at hHD
      exact runFrom_nondata pd cs' _
        (noDataAfterDone_extract pre _ dl hHD hd)

/-- C6 amended: for every SSE payload in which no complete `data: ` line
follows the first `data: [DONE]` line, feeding the payload to the chat
stream loop as a single chunk and feeding it split into any sequence of
chunks produce an identical final accumulated assistant text: complete
lines whose JSON fails to parse are re-buffered with the newline restored
and retried, never discarded, so the result is invariant under chunking. -/
theorem chunking_invariance_amended (pd : List Char → Option (Option (List Char)))
    (chunks : List (List Char))
    (hHD : noDataAfterDone (completeLines (List.flatten chunks)) = true) :
    (runChunks pd chunks).acc = (runChunks pd [List.flatten chunks]).acc := by
  have h1 : (runChunks pd [List.flatten chunks]).acc =
      (process pd (List.flatten chunks) []).acc := by
    show (feed pd ⟨[], []⟩ (List.flatten chunks)).acc = _
    unfold feed
    rw [List.nil_append]
  rw [h1]
  have h2 := runFrom_main pd chunks ⟨[], []⟩ rfl (by rw [List.nil_append]; exact hHD)
  rw [List.nil_append] at h2
  exact h2

/-- Parse oracle agreeing with `JSON.parse` plus delta extraction on the
concrete payloads used below. -/
def demoPD : List Char → Option (Option (List Char)) :=
  fun s =>
    if s = "\x7b\"choices\":[\x7b\"delta\":\x7b\"content\":\"Hi\"\x7d\x7d]\x7d".toList then
      some (some "Hi".toList)
    else none

/-- A well-formed two-line SSE payload split mid-line into two chunks. -/
def demoChunks : List (List Char) :=
  ["data: \x7b\"choices\":[\x7b\"delta\":\x7b\"content\":\"Hi\"\x7d\x7d]\x7d\nda".toList,
   "ta: [DONE]\n".toList]

/-- Witness for `chunking_invariance_amended`: a payload whose `[DONE]`
line is last, split mid-line into two chunks. -/
theorem chunking_invariance_amended_witness :
    (runChunks demoPD demoChunks).acc =
      (runChunks demoPD [List.flatten demoChunks]).acc :=
  chunking_invariance_amended demoPD demoChunks (by decide)

/-- The counterexample payload: a content-bearing data line after the
`[DONE]` sentinel. -/
def cePayload : List Char :=
  "data: [DONE]\ndata: \x7b\"choices\":[\x7b\"delta\":\x7b\"content\":\"Hi\"\x7d\x7d]\x7d\n".toList

/-- The counterexample chunking: split exactly after the sentinel line. -/
def ceChunks : List (List Char) :=
  ["data: [DONE]\n".toList,
   "data: \x7b\"choices\":[\x7b\"delta\":\x7b\"content\":\"Hi\"\x7d\x7d]\x7d\n".toList]

/-- C6 counterexample: the claim as stated (invariance for every payload
and every split) is false.  With a data line after the `[DONE]` sentinel,
the single-chunk run stops at the sentinel and accumulates nothing, while
the split run processes the later line on the next read and accumulates
its delta. -/
theorem chunking_invariance_counterexample :
    List.flatten ceChunks = cePayload ∧
    (runChunks demoPD [cePayload]).acc = [] ∧
    (runChunks demoPD ceChunks).acc = "Hi".toList ∧
    (runChunks demoPD ceChunks).acc ≠ (runChunks demoPD [cePayload]).acc := by
  refine ⟨by decide, by decide, by decide, by decide⟩

end CutAI
